import Mathlib

/-! Verification development for the running_app repository.

Two parts are covered.

First, the route-candidate search and scoring engine (Geo Primitives,
Graph Adapter, Route Candidate Search, Route Scorer).  The script variants
carrying that engine are not present under src/, so those components are
modelled from the specification text; each such definition carries a doc
comment beginning with the words Modelled from the spec.

Second, the YouTube comment sentiment dashboard in src/streamlit_app.py
(sentiment labelling, engagement-rate computation, and the empty-comment
guard), embedded directly from the source.
-/

/-- Modelled from the spec: an edge of the externally supplied walkable
network (the graph-loading scripts are missing from src/).  An edge is an
ordered pair of nodes with a length in meters, an optional surface tag and
an optional highway tag; parallel edges between the same node pair may
exist. -/
structure Edge where
  u : ℕ
  v : ℕ
  length : ℚ
  surface : Option String
  highway : Option String
deriving DecidableEq

/-- Modelled from the spec: the externally supplied graph, given by its
node identifiers and its (multi-)edge list. -/
structure Graph where
  nodes : List ℕ
  edges : List Edge

/-- All parallel edges connecting u and v, in either orientation (the
network is undirected). -/
def edgesBetween (g : Graph) (u v : ℕ) : List Edge :=
  g.edges.filter (fun e => (e.u = u ∧ e.v = v) ∨ (e.u = v ∧ e.v = u))

/-- One comparison step of the minimum selection below. -/
def pickStep {α : Type} (w : α → ℚ) (acc : Option α) (x : α) : Option α :=
  match acc with
  | none => some x
  | some y => if w x < w y then some x else acc

/-- Pick the element of least weight from a list; ties are broken in favor
of the earliest element, so the choice is deterministic. -/
def pickBest {α : Type} (w : α → ℚ) (l : List α) : Option α :=
  l.foldl (pickStep w) none

/-- Modelled from the spec: among parallel edges the lowest-length edge is
authoritative; this picks it (deterministically, first on ties). -/
def minEdgeBetween (g : Graph) (u v : ℕ) : Option Edge :=
  pickBest Edge.length (edgesBetween g u v)

/-- Modelled from the spec: edge_length(graph, u, v) is the minimum length
among all parallel edges connecting u and v; 0 when none exists (the
caller must guarantee adjacency). -/
def edgeLength (g : Graph) (u v : ℕ) : ℚ :=
  match minEdgeBetween g u v with
  | some e => e.length
  | none => 0

/-- Whether at least one edge connects u and v. -/
def adjacent (g : Graph) (u v : ℕ) : Bool :=
  !(edgesBetween g u v).isEmpty

/-- The consecutive node pairs of a path. -/
def consecPairs : List ℕ → List (ℕ × ℕ)
  | u :: v :: rest => (u, v) :: consecPairs (v :: rest)
  | _ => []

/-- Modelled from the spec: path_length(graph, path) is the sum of
edge_length over consecutive pairs. -/
def pathLength (g : Graph) (p : List ℕ) : ℚ :=
  ((consecPairs p).map (fun uv => edgeLength g uv.1 uv.2)).sum

/-- All extensions of a (reversed) simple partial path; vis holds the
nodes walked so far, most recent first, cur is the current endpoint, and
fuel bounds the recursion depth.  Depth-first, following the node-list
order of the graph, so the enumeration is deterministic. -/
def growPaths (g : Graph) : ℕ → ℕ → List ℕ → List (List ℕ)
  | 0, _, vis => [vis]
  | fuel + 1, cur, vis =>
    vis :: (g.nodes.filter (fun v => adjacent g cur v && !(vis.contains v))).flatMap
      (fun v => growPaths g fuel v (v :: vis))

/-- All simple paths of the graph beginning at s, in a deterministic
order. -/
def simplePathsFrom (g : Graph) (s : ℕ) : List (List ℕ) :=
  (growPaths g g.nodes.length s [s]).map List.reverse

/-- All simple paths from s to t, in a deterministic order. -/
def pathsTo (g : Graph) (s t : ℕ) : List (List ℕ) :=
  (simplePathsFrom g s).filter (fun p => p.getLast? = some t)

/-- Modelled from the spec: shortest_path(graph, s, t) with Dijkstra
semantics over nonnegative edge lengths — the least-length path from s to
t, ties broken deterministically (first in enumeration order), none when
no path exists (the NoPathExists outcome).  The shortest-path-tree entry
paths[t] of shortest_path_tree(graph, s) is the same path, and
distances[t] is its length. -/
def shortestPathTo (g : Graph) (s t : ℕ) : Option (List ℕ) :=
  pickBest (pathLength g) (pathsTo g s t)

/-- The edge set of a leg: consecutive node pairs normalized to unordered
form (smaller endpoint first), since the network is undirected. -/
def edgeSetOf (p : List ℕ) : List (ℕ × ℕ) :=
  (consecPairs p).map (fun uv => if uv.1 ≤ uv.2 then uv else (uv.2, uv.1))

/-- Modelled from the spec: the overlap ratio of a loop candidate,
|outbound ∩ return| / |outbound|. -/
def overlapFrac (outLeg retLeg : List (ℕ × ℕ)) : ℚ :=
  ((outLeg.filter (fun e => retLeg.contains e)).length : ℚ) / (outLeg.length : ℚ)

/-- Modelled from the spec: one step of the candidate-midpoint loop of
Route Candidate Search.  For midpoint m: require the outbound distance to
lie within ε of T/2; compute the second leg shortest_path(graph, m, e),
skipping the candidate on NoPathExists; accept when the combined length is
within ε of T; drop duplicates of already-accepted routes; in loop mode
reject candidates whose overlap ratio exceeds the threshold; stop adding
once k routes are collected.  The candidate route is paths[m] concatenated
with the second leg minus its first node (the shared midpoint). -/
def searchStep (g : Graph) (s e : ℕ) (T ε thr : ℚ) (k : ℕ) (loop : Bool)
    (acc : List (List ℕ)) (m : ℕ) : List (List ℕ) :=
  if k ≤ acc.length then acc
  else
    match shortestPathTo g s m with
    | none => acc
    | some p1 =>
      if |pathLength g p1 - T / 2| ≤ ε then
        match shortestPathTo g m e with
        | none => acc
        | some p2 =>
          if |pathLength g p1 + pathLength g p2 - T| ≤ ε then
            if p1 ++ p2.tail ∈ acc then acc
            else if loop = true ∧ thr < overlapFrac (edgeSetOf p1) (edgeSetOf p2) then acc
            else acc ++ [p1 ++ p2.tail]
          else acc
      else acc

/-- Modelled from the spec: Route Candidate Search.  s and e are the
snapped start and end nodes, T the target distance, ε the tolerance, thr
the overlap threshold (default 1/4), k the desired count; loop mode sets
e = s and enables overlap rejection.  Candidate midpoints are scanned in
the deterministic order of the graph's node list. -/
def routeSearch (g : Graph) (s e : ℕ) (T ε thr : ℚ) (k : ℕ) (loop : Bool) :
    List (List ℕ) :=
  g.nodes.foldl (searchStep g s e T ε thr k loop) []

/-- Modelled from the spec: surface classification of the authoritative
(minimum-length) edge between u and v — the surface tag if present, else
the highway tag, else the label unknown. -/
def classifyEdge (g : Graph) (u v : ℕ) : String :=
  match minEdgeBetween g u v with
  | none => "unknown"
  | some e =>
    match e.surface with
    | some sfc => sfc
    | none =>
      match e.highway with
      | some hw => hw
      | none => "unknown"

/-- The distinct surface classes found along a route. -/
def surfaceClasses (g : Graph) (p : List ℕ) : List String :=
  ((consecPairs p).map (fun uv => classifyEdge g uv.1 uv.2)).dedup

/-- Modelled from the spec: accumulated length of the route's edges whose
classification equals c. -/
def classLen (g : Graph) (p : List ℕ) (c : String) : ℚ :=
  (((consecPairs p).filter (fun uv => classifyEdge g uv.1 uv.2 = c)).map
    (fun uv => edgeLength g uv.1 uv.2)).sum

/-- Modelled from the spec: the integer (truncated) percentage of the
total route length contributed by class c, computed independently per
class. -/
def surfacePct (g : Graph) (p : List ℕ) (c : String) : ℤ :=
  ⌊classLen g p c * 100 / pathLength g p⌋

/-- Modelled from the spec: the surface_percentages mapping of the Route
Scorer, from each surface class of the route to its integer percentage. -/
def surfacePercentages (g : Graph) (p : List ℕ) : List (String × ℤ) :=
  (surfaceClasses g p).map (fun c => (c, surfacePct g p c))

/-- Degrees to radians. -/
noncomputable def toRad (d : ℝ) : ℝ :=
  d * Real.pi / 180

/-- Modelled from the spec: great-circle distance between two (latitude,
longitude) coordinates in degrees via the haversine formula, Earth radius
6371000 m. -/
noncomputable def haversine (a b : ℝ × ℝ) : ℝ :=
  2 * 6371000 * Real.arcsin (Real.sqrt
    (Real.sin (toRad (b.1 - a.1) / 2) ^ 2 +
      Real.cos (toRad a.1) * Real.cos (toRad b.1) *
        Real.sin (toRad (b.2 - a.2) / 2) ^ 2))

/-- From src/streamlit_app.py, lines 230-241: the sentiment-analysis loop
over the fetched comments.  pol is the opaque polarity oracle (TextBlob).
Each comment appends its polarity to the first list; the label branch
appends Positive once when polarity > 0.05, but the elif branch appends
the Negative label TWICE (the statement at line 237 is duplicated at line
238), and the else branch appends Neutral once. -/
def analyzeComments (pol : String → ℚ) (cs : List String) :
    List ℚ × List String :=
  cs.foldl (fun acc c =>
    (acc.1 ++ [pol c],
      if pol c > 1/20 then acc.2 ++ [("Positive")]
      else if pol c < -(1/20) then acc.2 ++ [("Negative")] ++ [("Negative")]
      else acc.2 ++ [("Neutral")])) ([], [])

/-- From src/streamlit_app.py: the guard before sentiment analysis — when
the fetched comment list is empty the script warns and stops (modelled as
none), so analysis, DataFrame construction and chart rendering run only on
a non-empty list. -/
def runAnalysis (pol : String → ℚ) (cs : List String) :
    Option (List ℚ × List String) :=
  if cs.isEmpty then none else some (analyzeComments pol cs)

/-- From src/streamlit_app.py: engagement = ((likes + comment_count) /
max(views, 1)) * 100. -/
def engagement (likes commentCount views : ℕ) : ℚ :=
  ((likes : ℚ) + commentCount) / max (views : ℚ) 1 * 100

/-- From src/streamlit_app.py: er = (likes + comments_count) /
max(views, 1). -/
def er (likes commentCount views : ℕ) : ℚ :=
  ((likes : ℚ) + commentCount) / max (views : ℚ) 1

/-- A six-node cycle graph, every edge 100 m; the node-list order is
chosen so that the depth-first tie-break sends the outbound and return
legs around opposite sides of the cycle. -/
def G6 : Graph :=
  { nodes := [0, 1, 4, 2, 3, 5],
    edges := [⟨0, 1, 100, none, none⟩, ⟨1, 2, 100, none, none⟩,
      ⟨2, 3, 100, none, none⟩, ⟨3, 4, 100, none, none⟩,
      ⟨4, 5, 100, none, none⟩, ⟨5, 0, 100, none, none⟩] }

/-- A two-node graph with a single 100 m edge, used for the
no-candidate-in-band scenario. -/
def G2 : Graph :=
  { nodes := [0, 1], edges := [⟨0, 1, 100, none, none⟩] }

/-- A disconnected graph: node 2 is unreachable, so every second leg
toward it fails with NoPathExists. -/
def G3 : Graph :=
  { nodes := [0, 1, 2], edges := [⟨0, 1, 100, none, none⟩] }

/-- Whether node m is a candidate midpoint of the search: reachable from
s and with outbound distance within ε of T/2. -/
def midpointInBand (g : Graph) (s : ℕ) (T ε : ℚ) (m : ℕ) : Bool :=
  match shortestPathTo g s m with
  | none => false
  | some p => decide (|pathLength g p - T / 2| ≤ ε)

/-- The shape every accepted route has: it splits at some midpoint m into
the shortest outbound leg and the shortest second leg, its combined length
is within tolerance of the target, and in loop mode its overlap ratio is
within the threshold. -/
def GoodRoute (g : Graph) (s e : ℕ) (T ε thr : ℚ) (loop : Bool)
    (r : List ℕ) : Prop :=
  ∃ m p1 p2, shortestPathTo g s m = some p1 ∧ shortestPathTo g m e = some p2 ∧
    r = p1 ++ p2.tail ∧ |pathLength g p1 + pathLength g p2 - T| ≤ ε ∧
    (loop = true → overlapFrac (edgeSetOf p1) (edgeSetOf p2) ≤ thr)

/-- Invariant of the candidate loop: every collected route is well formed,
no route appears twice, and at most k routes are collected. -/
def SearchInv (g : Graph) (s e : ℕ) (T ε thr : ℚ) (k : ℕ) (loop : Bool)
    (acc : List (List ℕ)) : Prop :=
  (∀ r ∈ acc, GoodRoute g s e T ε thr loop r) ∧ acc.Nodup ∧ acc.length ≤ k

/-- A path graph of seven unit-length edges, each with a distinct surface
tag. -/
def G8 : Graph :=
  { nodes := [0, 1, 2, 3, 4, 5, 6, 7],
    edges := [⟨0, 1, 1, some ("a"), none⟩, ⟨1, 2, 1, some ("b"), none⟩,
      ⟨2, 3, 1, some ("c"), none⟩, ⟨3, 4, 1, some ("d"), none⟩,
      ⟨4, 5, 1, some ("e"), none⟩, ⟨5, 6, 1, some ("f"), none⟩,
      ⟨6, 7, 1, some ("g"), none⟩] }

/-- The route traversing all of G8. -/
def P8 : List ℕ := [0, 1, 2, 3, 4, 5, 6, 7]

/-- A fold preserves any invariant preserved by its step function. -/
theorem foldl_preserve {α β : Type} {P : β → Prop} (f : β → α → β)
    (h : ∀ b a, P b → P (f b a)) :
    ∀ (l : List α) (b : β), P b → P (l.foldl f b) := by
  intro l
  induction l with
  | nil => intro b hb; simpa using hb
  | cons a t ih => intro b hb; exact ih (f b a) (h b a hb)

/-- The selection step only ever returns its accumulator or its input. -/
theorem pickStep_cases {α : Type} (w : α → ℚ) (acc : Option α) (x z : α)
    (h : pickStep w acc x = some z) : acc = some z ∨ z = x := by
  unfold pickStep at h
  cases acc with
  | none => right; simpa using h.symm
  | some y =>
    by_cases hw : w x < w y
    · right; simp [hw] at h; exact h.symm
    · left; simpa [hw] using h

/-- Anything selected out of the fold was the initial accumulator or a
member of the list. -/
theorem pickBest_loop_mem {α : Type} (w : α → ℚ) :
    ∀ (l : List α) (acc : Option α) (x : α),
      l.foldl (pickStep w) acc = some x → acc = some x ∨ x ∈ l := by
  intro l
  induction l with
  | nil => intro acc x h; exact Or.inl (by simpa using h)
  | cons a t ih =>
    intro acc x h
    rcases ih (pickStep w acc a) x (by simpa using h) with h1 | h1
    · rcases pickStep_cases w acc a x h1 with h2 | h2
      · exact Or.inl h2
      · exact Or.inr (by simp [h2])
    · exact Or.inr (List.mem_cons_of_mem a h1)

/-- The selected element is a member of the list. -/
theorem pickBest_mem {α : Type} (w : α → ℚ) (l : List α) (x : α)
    (h : pickBest w l = some x) : x ∈ l := by
  rcases pickBest_loop_mem w l none x h with h1 | h1
  · exact absurd h1 (by simp)
  · exact h1

/-- Every reversed partial path produced by growPaths is nonempty and
keeps the last node of the seed. -/
theorem growPaths_getLast (g : Graph) :
    ∀ (fuel cur : ℕ) (vis q : List ℕ), vis ≠ [] →
      q ∈ growPaths g fuel cur vis → q ≠ [] ∧ q.getLast? = vis.getLast? := by
  intro fuel
  induction fuel with
  | zero =>
    intro cur vis q hv hq
    simp [growPaths] at hq
    subst hq
    exact ⟨hv, rfl⟩
  | succ n ih =>
    intro cur vis q hv hq
    simp only [growPaths, List.mem_cons, List.mem_flatMap, List.mem_filter] at hq
    rcases hq with rfl | ⟨v, _, hq⟩
    · exact ⟨hv, rfl⟩
    · obtain ⟨h1, h2⟩ := ih v (v :: vis) q (by simp) hq
      refine ⟨h1, ?_⟩
      rw [h2]
      cases vis with
      | nil => exact absurd rfl hv
      | cons a t => simp

/-- Every enumerated simple path is nonempty and starts at the source. -/
theorem simplePathsFrom_head (g : Graph) (s : ℕ) (p : List ℕ)
    (hp : p ∈ simplePathsFrom g s) : p ≠ [] ∧ p.head? = some s := by
  simp only [simplePathsFrom, List.mem_map] at hp
  obtain ⟨q, hq, rfl⟩ := hp
  obtain ⟨h1, h2⟩ := growPaths_getLast g g.nodes.length s [s] q (by simp) hq
  refine ⟨by simpa using h1, ?_⟩
  rw [List.head?_reverse, h2]
  rfl

/-- A path returned by shortest-path search is nonempty, starts at the
source and ends at the target. -/
theorem shortestPathTo_spec (g : Graph) (s t : ℕ) (p : List ℕ)
    (h : shortestPathTo g s t = some p) :
    p ≠ [] ∧ p.head? = some s ∧ p.getLast? = some t := by
  have hmem : p ∈ pathsTo g s t := pickBest_mem _ _ _ h
  have h2 : p ∈ simplePathsFrom g s ∧ p.getLast? = some t := by
    simpa [pathsTo, List.mem_filter] using hmem
  obtain ⟨h3, h4⟩ := simplePathsFrom_head g s p h2.1
  exact ⟨h3, h4, h2.2⟩

/-- Joining two legs at their shared endpoint concatenates their
consecutive-pair lists. -/
theorem consecPairs_append :
    ∀ (p q : List ℕ) (m : ℕ), p.getLast? = some m → q.head? = some m →
      consecPairs (p ++ q.tail) = consecPairs p ++ consecPairs q := by
  intro p
  induction p with
  | nil => intro q m h _; simp at h
  | cons a t ih =>
    intro q m h1 h2
    cases t with
    | nil =>
      simp at h1
      subst h1
      cases q with
      | nil => simp at h2
      | cons b u =>
        simp at h2
        subst h2
        simp [consecPairs]
    | cons b u =>
      have h1' : (b :: u).getLast? = some m := by
        rw [← h1]; simp
      have hrec := ih q m h1' h2
      simp only [List.cons_append, consecPairs] at hrec ⊢
      exact congrArg (fun l => (a, b) :: l) hrec

/-- Modelled from the spec: the length of the candidate route paths[m] ++
(second leg minus its shared first node) is the sum of the two leg
lengths. -/
theorem pathLength_append (g : Graph) (p q : List ℕ) (m : ℕ)
    (h1 : p.getLast? = some m) (h2 : q.head? = some m) :
    pathLength g (p ++ q.tail) = pathLength g p + pathLength g q := by
  unfold pathLength
  rw [consecPairs_append p q m h1 h2, List.map_append, List.sum_append]

/-- One search step preserves the invariant. -/
theorem searchStep_inv (g : Graph) (s e : ℕ) (T ε thr : ℚ) (k : ℕ)
    (loop : Bool) (acc : List (List ℕ)) (m : ℕ)
    (h : SearchInv g s e T ε thr k loop acc) :
    SearchInv g s e T ε thr k loop (searchStep g s e T ε thr k loop acc m) := by
  unfold searchStep
  split
  · exact h
  next hk =>
    split
    · exact h
    next p1 hp1 =>
      split
      next hband =>
        split
        · exact h
        next p2 hp2 =>
          split
          next htot =>
            split
            · exact h
            next hdup =>
              split
              · exact h
              next hov =>
                refine ⟨?_, ?_, ?_⟩
                · intro r hr
                  rcases List.mem_append.mp hr with hr | hr
                  · exact h.1 r hr
                  · have hr' : r = p1 ++ p2.tail := by simpa using hr
                    subst hr'
                    exact ⟨m, p1, p2, hp1, hp2, rfl, htot,
                      fun hl => le_of_not_lt (fun hlt => hov ⟨hl, hlt⟩)⟩
                · exact List.Nodup.append h.2.1 (List.nodup_singleton _)
                    (by simpa [List.disjoint_singleton] using hdup)
                · have hlen : acc.length < k := Nat.lt_of_not_le hk
                  simp only [List.length_append, List.length_singleton]
                  omega
          · exact h
      · exact h

/-- The full search satisfies the invariant. -/
theorem routeSearch_inv (g : Graph) (s e : ℕ) (T ε thr : ℚ) (k : ℕ)
    (loop : Bool) :
    SearchInv g s e T ε thr k loop (routeSearch g s e T ε thr k loop) := by
  unfold routeSearch
  exact foldl_preserve _ (fun b a hb => searchStep_inv g s e T ε thr k loop b a hb)
    g.nodes [] ⟨by simp, List.nodup_nil, by simp⟩

/-- C1.  Tolerance satisfaction: every Route returned by Route Candidate
Search for a SearchRequest with target distance T and tolerance ε
satisfies |path_length(graph, route) - T| ≤ ε. -/
theorem tolerance_satisfaction (g : Graph) (s e : ℕ) (T ε thr : ℚ) (k : ℕ)
    (loop : Bool) (r : List ℕ) (hr : r ∈ routeSearch g s e T ε thr k loop) :
    |pathLength g r - T| ≤ ε := by
  obtain ⟨m, p1, p2, hp1, hp2, rfl, htot, -⟩ :=
    (routeSearch_inv g s e T ε thr k loop).1 r hr
  have e1 := shortestPathTo_spec g s m p1 hp1
  have e2 := shortestPathTo_spec g m e p2 hp2
  rw [pathLength_append g p1 p2 m e1.2.2 e2.2.1]
  exact htot

/-- C1 witness: the loop search on the six-node cycle with target 600 and
tolerance 50 returns the full loop, whose length is within tolerance. -/
theorem tolerance_satisfaction_witness :
    |pathLength G6 [0, 1, 2, 3, 4, 5, 0] - 600| ≤ 50 :=
  tolerance_satisfaction G6 0 0 600 50 (1/4) 3 true [0, 1, 2, 3, 4, 5, 0]
    (of_decide_eq_true (by with_unfolding_all rfl))

/-- C2.  Loop closure: in loop mode (second endpoint equal to the start),
every Route returned by Route Candidate Search has its first node and its
last node both equal to the snapped start node s. -/
theorem loop_closure (g : Graph) (s : ℕ) (T ε thr : ℚ) (k : ℕ) (r : List ℕ)
    (hr : r ∈ routeSearch g s s T ε thr k true) :
    r.head? = some s ∧ r.getLast? = some s := by
  obtain ⟨m, p1, p2, hp1, hp2, rfl, -, -⟩ :=
    (routeSearch_inv g s s T ε thr k true).1 r hr
  obtain ⟨hne1, hh1, hl1⟩ := shortestPathTo_spec g s m p1 hp1
  obtain ⟨hne2, hh2, hl2⟩ := shortestPathTo_spec g m s p2 hp2
  constructor
  · rw [List.head?_append, hh1]
    rfl
  · cases p2 with
    | nil => exact absurd rfl hne2
    | cons b u =>
      cases u with
      | nil =>
        have hbm : b = m := by simpa using hh2
        have hbs : b = s := by simpa using hl2
        simp only [List.tail_cons, List.append_nil]
        rw [hl1, ← hbm, hbs]
      | cons c u2 =>
        rw [List.getLast?_append]
        have hcl : (c :: u2).getLast? = some s := by
          rw [← hl2]
          simp
        rw [List.tail_cons, hcl]
        rfl

/-- C2 witness: the loop returned on the six-node cycle starts and ends
at the snapped start node 0. -/
theorem loop_closure_witness :
    ([0, 1, 2, 3, 4, 5, 0] : List ℕ).head? = some 0 ∧
      ([0, 1, 2, 3, 4, 5, 0] : List ℕ).getLast? = some 0 :=
  loop_closure G6 0 600 50 (1/4) 3 [0, 1, 2, 3, 4, 5, 0]
    (of_decide_eq_true (by with_unfolding_all rfl))

/-- C3.  Overlap rejection: every loop Route returned by Route Candidate
Search decomposes into its outbound leg and its return leg, and the
outbound/return edge-overlap ratio |outbound ∩ return| / |outbound| does
not exceed the configured threshold thr (default 1/4). -/
theorem overlap_rejection (g : Graph) (s : ℕ) (T ε thr : ℚ) (k : ℕ)
    (r : List ℕ) (hr : r ∈ routeSearch g s s T ε thr k true) :
    ∃ m p1 p2, shortestPathTo g s m = some p1 ∧
      shortestPathTo g m s = some p2 ∧ r = p1 ++ p2.tail ∧
      overlapFrac (edgeSetOf p1) (edgeSetOf p2) ≤ thr := by
  obtain ⟨m, p1, p2, hp1, hp2, hr2, -, hov⟩ :=
    (routeSearch_inv g s s T ε thr k true).1 r hr
  exact ⟨m, p1, p2, hp1, hp2, hr2, hov rfl⟩

/-- C3 witness: the loop returned on the six-node cycle at the default
threshold 1/4 has overlap ratio within the threshold. -/
theorem overlap_rejection_witness :
    ∃ m p1 p2, shortestPathTo G6 0 m = some p1 ∧
      shortestPathTo G6 m 0 = some p2 ∧
      ([0, 1, 2, 3, 4, 5, 0] : List ℕ) = p1 ++ p2.tail ∧
      overlapFrac (edgeSetOf p1) (edgeSetOf p2) ≤ 1/4 :=
  overlap_rejection G6 0 600 50 (1/4) 3 [0, 1, 2, 3, 4, 5, 0]
    (of_decide_eq_true (by with_unfolding_all rfl))

/-- C4.  Within one RouteSet produced by a single Route Candidate Search
invocation, no two Routes have identical node sequences, and the RouteSet
contains at most k Routes. -/
theorem routeset_distinct_bounded (g : Graph) (s e : ℕ) (T ε thr : ℚ)
    (k : ℕ) (loop : Bool) :
    (routeSearch g s e T ε thr k loop).Nodup ∧
      (routeSearch g s e T ε thr k loop).length ≤ k :=
  ⟨(routeSearch_inv g s e T ε thr k loop).2.1,
   (routeSearch_inv g s e T ε thr k loop).2.2⟩

/-- A fold over route accumulators stays empty when every step maps the
empty accumulator to itself. -/
theorem foldl_acc_nil (f : List (List ℕ) → ℕ → List (List ℕ)) :
    ∀ (l : List ℕ), (∀ a ∈ l, f [] a = []) → l.foldl f [] = [] := by
  intro l
  induction l with
  | nil => intro _; rfl
  | cons a t ih =>
    intro h
    simp only [List.foldl_cons, h a (List.mem_cons_self a t)]
    exact ih (fun x hx => h x (List.mem_cons_of_mem a hx))

/-- C5.  Empty-result policy: the search is a total function into route
lists, so it never raises.  If zero candidate midpoints satisfy the
tolerance band it returns the empty RouteSet, and when every in-band
candidate's second leg fails with NoPathExists the failures are swallowed
one by one and the result is again the empty RouteSet, not an error. -/
theorem empty_result_policy (g : Graph) (s e : ℕ) (T ε thr : ℚ) (k : ℕ)
    (loop : Bool) :
    ((∀ m ∈ g.nodes, midpointInBand g s T ε m = false) →
      routeSearch g s e T ε thr k loop = []) ∧
    ((∀ m ∈ g.nodes, midpointInBand g s T ε m = true →
        shortestPathTo g m e = none) →
      routeSearch g s e T ε thr k loop = []) := by
  constructor
  · intro hband
    unfold routeSearch
    refine foldl_acc_nil _ g.nodes (fun a ha => ?_)
    have hm := hband a ha
    unfold searchStep
    split
    · rfl
    split
    · rfl
    next p1 hp1 =>
      split
      next hb =>
        exfalso
        unfold midpointInBand at hm
        rw [hp1] at hm
        simp only [decide_eq_false_iff_not] at hm
        exact hm hb
      · rfl
  · intro hnp
    unfold routeSearch
    refine foldl_acc_nil _ g.nodes (fun a ha => ?_)
    have hm := hnp a ha
    unfold searchStep
    split
    · rfl
    split
    · rfl
    next p1 hp1 =>
      split
      next hb =>
        have : shortestPathTo g a e = none := by
          apply hm
          unfold midpointInBand
          rw [hp1]
          simpa using hb
        rw [this]
      · rfl

/-- C5 witness: a request far outside the graph's extent returns the
empty RouteSet on the two-node graph, and a point-to-point request toward
the unreachable node of the disconnected graph swallows every
NoPathExists and returns the empty RouteSet. -/
theorem empty_result_policy_witness :
    routeSearch G2 0 0 1000000 1 (1/4) 3 true = [] ∧
      routeSearch G3 0 2 200 50 (1/4) 3 false = [] :=
  ⟨(empty_result_policy G2 0 0 1000000 1 (1/4) 3 true).1
      (of_decide_eq_true (by with_unfolding_all rfl)),
   (empty_result_policy G3 0 2 200 50 (1/4) 3 false).2
      (of_decide_eq_true (by with_unfolding_all rfl))⟩

/-- Sum of a pointwise sum of two maps splits. -/
theorem sum_map_add {β : Type} (C : List β) (A B : β → ℚ) :
    (C.map (fun c => A c + B c)).sum = (C.map A).sum + (C.map B).sum := by
  induction C with
  | nil => simp
  | cons c t ih =>
    simp only [List.map_cons, List.sum_cons, ih]
    ring

/-- A constant factor moves out of a mapped sum. -/
theorem sum_map_mul_right {β : Type} (C : List β) (A : β → ℚ) (r : ℚ) :
    (C.map (fun c => A c * r)).sum = (C.map A).sum * r := by
  induction C with
  | nil => simp
  | cons c t ih =>
    simp only [List.map_cons, List.sum_cons, ih]
    ring

/-- Over a duplicate-free list containing b, summing the indicator of b
yields exactly one contribution. -/
theorem sum_map_ite_eq {β : Type} [DecidableEq β] (w : ℚ) :
    ∀ (C : List β) (b : β), C.Nodup → b ∈ C →
      (C.map (fun c => if b = c then w else 0)).sum = w := by
  intro C
  induction C with
  | nil => intro b _ hb; simp at hb
  | cons c t ih =>
    intro b hn hb
    rcases List.mem_cons.mp hb with rfl | hb2
    · simp only [List.map_cons, List.sum_cons, if_pos rfl]
      have hz : (t.map (fun x => if b = x then w else 0)).sum = 0 := by
        apply List.sum_eq_zero
        intro y hy
        simp only [List.mem_map] at hy
        obtain ⟨x, hx, rfl⟩ := hy
        have hbx : b ≠ x := fun h => (List.nodup_cons.mp hn).1 (h ▸ hx)
        simp [hbx]
      rw [hz]
      simp
    · have hbc : b ≠ c := by
        intro h
        exact (List.nodup_cons.mp hn).1 (h ▸ hb2)
      simp only [List.map_cons, List.sum_cons, if_neg hbc]
      rw [ih b (List.nodup_cons.mp hn).2 hb2]
      ring

/-- Partition lemma: fibering a weighted list sum over a duplicate-free
list of classes covering every element reproduces the total sum. -/
theorem sum_filter_classes {α β : Type} [DecidableEq β] (f : α → β)
    (w : α → ℚ) (C : List β) (hC : C.Nodup) :
    ∀ (l : List α), (∀ x ∈ l, f x ∈ C) →
      (C.map (fun c => ((l.filter (fun x => f x = c)).map w).sum)).sum =
        (l.map w).sum := by
  intro l
  induction l with
  | nil => simp
  | cons a t ih =>
    intro hl
    have hfun : (fun c => ((List.filter (fun x => f x = c) (a :: t)).map w).sum)
        = fun c => (if f a = c then w a else 0) +
            ((List.filter (fun x => f x = c) t).map w).sum := by
      funext c
      by_cases hc : f a = c
      · simp [List.filter_cons, hc]
      · simp [List.filter_cons, hc]
    rw [hfun, sum_map_add, sum_map_ite_eq (w a) C (f a) hC (hl a (by simp)),
      ih (fun x hx => hl x (List.mem_cons_of_mem a hx))]
    simp

/-- Sums of floors are bounded by the floor of the sum. -/
theorem sum_map_floor_le {β : Type} (C : List β) (f : β → ℚ) :
    (C.map (fun c => ⌊f c⌋)).sum ≤ ⌊(C.map f).sum⌋ := by
  induction C with
  | nil => simp
  | cons c t ih =>
    simp only [List.map_cons, List.sum_cons]
    have h2 : ⌊f c⌋ + ⌊(t.map f).sum⌋ ≤ ⌊f c + (t.map f).sum⌋ := by
      apply Int.le_floor.mpr
      push_cast
      exact add_le_add (Int.floor_le _) (Int.floor_le _)
    linarith [ih]

/-- Edge lengths read off the graph are nonnegative when all stored edge
lengths are. -/
theorem edgeLength_nonneg (g : Graph) (h : ∀ e ∈ g.edges, 0 ≤ e.length)
    (u v : ℕ) : 0 ≤ edgeLength g u v := by
  unfold edgeLength
  split
  next e he =>
    unfold minEdgeBetween at he
    have hmem : e ∈ edgesBetween g u v := pickBest_mem _ _ _ he
    exact h e (List.mem_of_mem_filter hmem)
  · exact le_refl 0

/-- Per-class accumulated length is nonnegative. -/
theorem classLen_nonneg (g : Graph) (p : List ℕ) (c : String)
    (h : ∀ e ∈ g.edges, 0 ≤ e.length) : 0 ≤ classLen g p c := by
  unfold classLen
  apply List.sum_nonneg
  intro x hx
  simp only [List.mem_map] at hx
  obtain ⟨uv, -, rfl⟩ := hx
  exact edgeLength_nonneg g h uv.1 uv.2

/-- Route length is nonnegative. -/
theorem pathLength_nonneg (g : Graph) (p : List ℕ)
    (h : ∀ e ∈ g.edges, 0 ≤ e.length) : 0 ≤ pathLength g p := by
  unfold pathLength
  apply List.sum_nonneg
  intro x hx
  simp only [List.mem_map] at hx
  obtain ⟨uv, -, rfl⟩ := hx
  exact edgeLength_nonneg g h uv.1 uv.2

/-- No class accumulates more than the whole route. -/
theorem classLen_le_pathLength (g : Graph) (p : List ℕ) (c : String)
    (h : ∀ e ∈ g.edges, 0 ≤ e.length) :
    classLen g p c ≤ pathLength g p := by
  unfold classLen pathLength
  apply List.Sublist.sum_le_sum
  · exact List.Sublist.map _ (List.filter_sublist _)
  · intro x hx
    simp only [List.mem_map] at hx
    obtain ⟨uv, -, rfl⟩ := hx
    exact edgeLength_nonneg g h uv.1 uv.2

/-- The per-class accumulated lengths over the route's distinct classes
sum to the route length. -/
theorem classLen_sum (g : Graph) (p : List ℕ) :
    ((surfaceClasses g p).map (fun c => classLen g p c)).sum =
      pathLength g p := by
  unfold surfaceClasses classLen pathLength
  apply sum_filter_classes
  · exact List.nodup_dedup _
  · intro x hx
    exact List.mem_dedup.mpr (List.mem_map_of_mem _ hx)

/-- Each individual surface percentage lies in [0, 100]. -/
theorem surfacePct_bounds (g : Graph) (p : List ℕ) (c : String)
    (h : ∀ e ∈ g.edges, 0 ≤ e.length) :
    0 ≤ surfacePct g p c ∧ surfacePct g p c ≤ 100 := by
  unfold surfacePct
  rcases eq_or_lt_of_le (pathLength_nonneg g p h) with h0 | h0
  · rw [← h0]
    simp
  · constructor
    · apply Int.floor_nonneg.mpr
      apply div_nonneg _ (le_of_lt h0)
      exact mul_nonneg (classLen_nonneg g p c h) (by norm_num)
    · have hle : classLen g p c * 100 / pathLength g p ≤ 100 := by
        rw [div_le_iff₀ h0]
        have hc := classLen_le_pathLength g p c h
        nlinarith
      have hfl := Int.floor_le_floor hle
      have h100 : (⌊(100:ℚ)⌋ : ℤ) = 100 := by norm_num
      omega

/-- C6 counterexample: on a route of seven equal unit-length edges with
seven distinct surface tags, every class truncates to 14 percent, so the
percentages sum to 98, outside the interval [99, 101] asserted by the
claim. -/
theorem surface_percentage_sum_counterexample :
    ((surfacePercentages G8 P8).map Prod.snd).sum = 98 ∧
      ¬(99 ≤ ((surfacePercentages G8 P8).map Prod.snd).sum ∧
        ((surfacePercentages G8 P8).map Prod.snd).sum ≤ 101) := by
  have h : ((surfacePercentages G8 P8).map Prod.snd).sum = 98 := by
    with_unfolding_all rfl
  refine ⟨h, ?_⟩
  rw [h]
  decide

/-- C6 (amended).  For a graph with nonnegative edge lengths, every
individual surface percentage lies in [0, 100] and the percentages sum to
at most 100; the lower bound 99 of the original claim fails once the
route splits across four or more surface classes, as the counterexample
shows. -/
theorem surface_percentage_bounds (g : Graph) (p : List ℕ)
    (h : ∀ e ∈ g.edges, 0 ≤ e.length) :
    (∀ c ∈ surfaceClasses g p, 0 ≤ surfacePct g p c ∧ surfacePct g p c ≤ 100) ∧
      ((surfacePercentages g p).map Prod.snd).sum ≤ 100 := by
  constructor
  · intro c _
    exact surfacePct_bounds g p c h
  · have hmap : (surfacePercentages g p).map Prod.snd =
        (surfaceClasses g p).map (fun c => surfacePct g p c) := by
      unfold surfacePercentages
      rw [List.map_map]
      rfl
    rw [hmap]
    rcases eq_or_lt_of_le (pathLength_nonneg g p h) with h0 | h0
    · have hz : ∀ x ∈ (surfaceClasses g p).map (fun c => surfacePct g p c),
          x = 0 := by
        intro x hx
        simp only [List.mem_map] at hx
        obtain ⟨c, -, rfl⟩ := hx
        unfold surfacePct
        rw [← h0]
        simp
      rw [List.sum_eq_zero hz]
      norm_num
    · have hle := sum_map_floor_le (surfaceClasses g p)
        (fun c => classLen g p c * 100 / pathLength g p)
      have heq : ((surfaceClasses g p).map
          (fun c => classLen g p c * 100 / pathLength g p)).sum = 100 := by
        have hfac : (fun c => classLen g p c * 100 / pathLength g p) =
            fun c => classLen g p c * (100 / pathLength g p) := by
          funext c
          ring
        rw [hfac, sum_map_mul_right, classLen_sum]
        field_simp
      rw [heq] at hle
      have h100 : (⌊(100:ℚ)⌋ : ℤ) = 100 := by norm_num
      have : ((surfaceClasses g p).map (fun c => surfacePct g p c)).sum ≤ ⌊(100:ℚ)⌋ := by
        unfold surfacePct
        exact hle
      omega

/-- C6 witness: on the seven-surface route the class percentages all lie
in [0, 100] and their sum stays at or below 100. -/
theorem surface_percentage_bounds_witness :
    (0 ≤ surfacePct G8 P8 ("a") ∧ surfacePct G8 P8 ("a") ≤ 100) ∧
      ((surfacePercentages G8 P8).map Prod.snd).sum ≤ 100 :=
  ⟨(surface_percentage_bounds G8 P8
      (of_decide_eq_true (by with_unfolding_all rfl))).1 ("a")
      (of_decide_eq_true (by with_unfolding_all rfl)),
   (surface_percentage_bounds G8 P8
      (of_decide_eq_true (by with_unfolding_all rfl))).2⟩

/-- C7 counterexample: the two distinct coordinate pairs (90, 0) and
(90, 1) both denote the north pole, and their haversine distance is 0, so
distance zero does not imply coordinate equality. -/
theorem distance_zero_counterexample :
    haversine ((90:ℝ), 0) ((90:ℝ), 1) = 0 ∧
      ((90:ℝ), (0:ℝ)) ≠ ((90:ℝ), (1:ℝ)) := by
  constructor
  · show 2 * 6371000 * Real.arcsin (Real.sqrt
      (Real.sin (toRad ((90:ℝ) - 90) / 2) ^ 2 +
        Real.cos (toRad (90:ℝ)) * Real.cos (toRad (90:ℝ)) *
          Real.sin (toRad ((1:ℝ) - 0) / 2) ^ 2)) = 0
    have hc : Real.cos (toRad (90:ℝ)) = 0 := by
      unfold toRad
      rw [show (90:ℝ) * Real.pi / 180 = Real.pi / 2 by ring]
      exact Real.cos_pi_div_two
    have hs : Real.sin (toRad ((90:ℝ) - 90) / 2) = 0 := by
      norm_num [toRad]
    rw [hs, hc]
    norm_num
  · intro h
    have h2 := congrArg Prod.snd h
    norm_num at h2

/-- C7 (amended).  The haversine distance is symmetric and vanishes on
equal coordinate pairs; the converse of the zero condition is dropped,
since distinct pole coordinates also yield distance zero (see the
counterexample). -/
theorem distance_symm_zero (a b : ℝ × ℝ) :
    haversine a b = haversine b a ∧ haversine a a = 0 := by
  constructor
  · unfold haversine
    have h1 : ∀ x y : ℝ,
        Real.sin (toRad (x - y) / 2) ^ 2 = Real.sin (toRad (y - x) / 2) ^ 2 := by
      intro x y
      have hx : toRad (x - y) / 2 = -(toRad (y - x) / 2) := by
        unfold toRad
        ring
      rw [hx, Real.sin_neg]
      ring
    rw [h1 b.1 a.1, h1 b.2 a.2,
      mul_comm (Real.cos (toRad a.1)) (Real.cos (toRad b.1))]
  · unfold haversine
    simp [toRad]

/-- C8 (code bug).  Evaluating the sentiment loop at the failing input —
a single comment of polarity -1, i.e. below the -0.05 threshold — the
duplicated append of lines 237-238 of src/streamlit_app.py yields TWO
Negative labels for the one comment, so the label list (length 2)
diverges from the comment and polarity lists (length 1) and the
DataFrame construction that requires equal column lengths is handed
mismatched columns, contradicting the claim's exactly-one-label-per-
comment property. -/
theorem sentiment_label_mismatch :
    (analyzeComments (fun _ => (-1 : ℚ)) [("bad")]).2 =
        [("Negative"), ("Negative")] ∧
      (analyzeComments (fun _ => (-1 : ℚ)) [("bad")]).2.length = 2 ∧
      (analyzeComments (fun _ => (-1 : ℚ)) [("bad")]).1.length = 1 ∧
      ([("bad")] : List String).length = 1 := by
  refine ⟨?_, ?_, ?_, rfl⟩
  · with_unfolding_all rfl
  · with_unfolding_all rfl
  · with_unfolding_all rfl

/-- C9.  The engagement-rate computations never divide by zero: the
denominator max(views, 1) is at least 1 (hence nonzero, so er times it
recovers likes + comments exactly), engagement is er scaled by 100, and
for a video with viewCount 0 both are the plain sums. -/
theorem engagement_defined (likes commentCount views : ℕ) :
    (1:ℚ) ≤ max (views:ℚ) 1 ∧
      er likes commentCount views * max (views:ℚ) 1 =
        (likes:ℚ) + commentCount ∧
      engagement likes commentCount views = er likes commentCount views * 100 ∧
      er likes commentCount 0 = (likes:ℚ) + commentCount := by
  have h1 : (1:ℚ) ≤ max (views:ℚ) 1 := le_max_right _ _
  have h0 : max (views:ℚ) 1 ≠ 0 := by
    intro h
    rw [h] at h1
    norm_num at h1
  refine ⟨h1, ?_, rfl, ?_⟩
  · unfold er
    exact div_mul_cancel₀ _ h0
  · unfold er
    norm_num

/-- C10.  When the comment fetch yields an empty list the script stops
before any sentiment analysis (none); any analysis result implies the
comment list was non-empty. -/
theorem empty_comments_stop (pol : String → ℚ) (cs : List String) :
    (cs = [] → runAnalysis pol cs = none) ∧
      (∀ r, runAnalysis pol cs = some r → cs ≠ []) := by
  constructor
  · intro h
    subst h
    rfl
  · intro r hr h
    subst h
    simp [runAnalysis] at hr

/-- C10 witness: on the empty comment list the pipeline stops with no
analysis result. -/
theorem empty_comments_stop_witness :
    runAnalysis (fun _ => (0:ℚ)) [] = none :=
  (empty_comments_stop (fun _ => (0:ℚ)) []).1 rfl
